import Mathlib

/-!
Verification development for the BlueWallet/SilentPayments library
(BIP-352 silent payments, sender resolver and receiver scanner).

The definitions below are a shallow embedding of `src/index.ts` (the final
version of the module; superseded snapshots in the repository are out of
scope).  Byte arrays (`Uint8Array` / `Buffer`) are modelled as `List Nat`
with every element < 256; hex strings that are immediately converted to
byte arrays (`txid`) are modelled by the byte array itself.  External
primitives that are not part of this repository (node `crypto` SHA-256,
`ecpair` WIF decoding, the `@noble/secp256k1` point operations, and the
`bitcoinjs-lib` address codec) are parameters of the embedding, collected
in the `Ecc` structure; scalar arithmetic and the bech32m codec are
modelled concretely.  Fallible code (JavaScript `throw`) is modelled with
`Except` / `Option`.
-/

set_option maxRecDepth 16000

namespace SilentPayments

/-- A byte array (`Uint8Array`); each entry is a byte value < 256. -/
abbrev Bytes := List Nat

/-- Models the JavaScript expression `new Uint8Array(x)` applied to a value
that is either a `Uint8Array` or `null`: a `null` argument yields an *empty*
typed array (ECMAScript `ToIndex(null) = 0`), it does not throw. -/
def coerceBytes : Option Bytes → Bytes
  | none => []
  | some b => b

/-- Lexicographic unsigned byte-wise comparison, as implemented by
`compareUint8Arrays` (uint8array-extras) and `Buffer.compare`: compares
element-wise and makes a strict prefix smaller. -/
def byteCompare : Bytes → Bytes → Ordering
  | [], [] => .eq
  | [], _ :: _ => .lt
  | _ :: _, [] => .gt
  | a :: as, b :: bs => if a < b then .lt else if b < a then .gt else byteCompare as bs

/-- The non-strict order induced by `byteCompare` (used for sorting). -/
def lexLe (a b : Bytes) : Prop := byteCompare a b ≠ Ordering.gt

instance : DecidableRel lexLe := fun a b => by unfold lexLe; infer_instance

/-! ### bech32m decoding

Modelled from the spec: the repository consumes the external `bech32` npm
package (`bech32m.decode`, `bech32m.fromWords`) as its payment-code codec
primitive; the package itself is not part of `src/`.  The definitions below
implement the bech32m decoder (BIP-350): character-set lookup, the
`polymodStep` checksum with constant `0x2bc830a3`, length limit, case
normalization, separator split, and the 5-bit-to-8-bit regrouping with the
excess/non-zero padding checks. -/

/-- The bech32 data character set `qpzry9x8gf2tvdw0s3jn54khce6mua7l`. -/
def bech32Charset : List Char := "qpzry9x8gf2tvdw0s3jn54khce6mua7l".data

/-- Index of a character in a list (`ALPHABET_MAP` lookup). -/
def charIdx : List Char → Nat → Char → Option Nat
  | [], _, _ => none
  | x :: xs, i, c => if x = c then some i else charIdx xs (i + 1) c

/-- One step of the bech32 checksum polynomial. -/
def polymodStep (pre : Nat) : Nat :=
  let b := pre >>> 25
  ((pre &&& 0x1ffffff) <<< 5) ^^^
    (if b &&& 1 = 1 then 0x3b6a57b2 else 0) ^^^
    (if (b >>> 1) &&& 1 = 1 then 0x26508e6d else 0) ^^^
    (if (b >>> 2) &&& 1 = 1 then 0x1ea119fa else 0) ^^^
    (if (b >>> 3) &&& 1 = 1 then 0x3d4233dd else 0) ^^^
    (if (b >>> 4) &&& 1 = 1 then 0x2a1462b3 else 0)

/-- Checksum state after absorbing the human-readable part; `none` when a
character is outside the printable US-ASCII range accepted by the codec. -/
def hrpChk (hrp : List Char) : Option Nat :=
  match hrp.foldlM
      (fun chk c =>
        if c.toNat < 33 ∨ 126 < c.toNat then none
        else some (polymodStep chk ^^^ (c.toNat >>> 5))) 1 with
  | none => none
  | some chk1 =>
    some (hrp.foldl (fun chk c => polymodStep chk ^^^ (c.toNat &&& 0x1f)) (polymodStep chk1))

/-- Absorb the data characters: collects their 5-bit values and the final
checksum state; `none` on a character outside the charset. -/
def dataChk : List Char → Nat → Option (List Nat × Nat)
  | [], chk => some ([], chk)
  | c :: cs, chk =>
    match charIdx bech32Charset 0 c with
    | none => none
    | some v =>
      match dataChk cs (polymodStep chk ^^^ v) with
      | none => none
      | some (vs, chk') => some (v :: vs, chk')

/-- Index of the last `'1'` in a character list (`String.lastIndexOf("1")`). -/
def lastIndexOf1 (s : List Char) : Option Nat :=
  match s with
  | [] => none
  | c :: cs =>
    match lastIndexOf1 cs with
    | some i => some (i + 1)
    | none => if c = '1' then some 0 else none

/-- Decodes a bech32m string: returns the human-readable part and the 5-bit
data words (checksum words stripped), or `none` on any failure (too
short/long, mixed case, missing separator or prefix, unknown character, bad
checksum).  `limit` is the maximum total length (the repository passes 118). -/
def bech32mDecode (limit : Nat) (str : String) : Option (List Char × List Nat) :=
  let s := str.data
  if s.length < 8 then none
  else if limit < s.length then none
  else
    let lowered := s.map Char.toLower
    if s ≠ lowered ∧ s ≠ s.map Char.toUpper then none
    else
      let t := lowered
      match lastIndexOf1 t with
      | none => none
      | some split =>
        if split = 0 then none
        else
          let hrp := t.take split
          let wordChars := t.drop (split + 1)
          if wordChars.length < 6 then none
          else
            match hrpChk hrp with
            | none => none
            | some chk0 =>
              match dataChk wordChars chk0 with
              | none => none
              | some (vs, chk) =>
                if chk = 0x2bc830a3 then some (hrp, vs.take (vs.length - 6))
                else none

/-- Regroups 5-bit words into bytes without padding (`bech32m.fromWords`,
i.e. `convert(words, 5, 8, false)`): `none` on excess or non-zero padding.
The accumulator value is masked to 16 bits; only the low
`bits + 5 ≤ 12` bits are ever consulted, so this agrees with the package's
32-bit JavaScript arithmetic. -/
def conv58 : List Nat → Nat → Nat → Option Bytes
  | [], value, bits =>
    if 5 ≤ bits then none
    else if (value <<< (8 - bits)) &&& 255 ≠ 0 then none
    else some []
  | w :: ws, value, bits =>
    let v := ((value <<< 5) ||| w) &&& 0xffff
    let b := bits + 5
    if 8 ≤ b then
      match conv58 ws v (b - 8) with
      | none => none
      | some rest => some (((v >>> (b - 8)) &&& 255) :: rest)
    else
      conv58 ws v b

/-- Embeds `bech32m.fromWords`: 5-bit words to bytes. -/
def fromWords (words : List Nat) : Option Bytes := conv58 words 0 0

/-! ### Data model (src/index.ts) -/

/-- Embeds `UTXOType = "p2wpkh" | "p2sh-p2wpkh" | "p2pkh" | "p2tr" | "non-eligible"`. -/
inductive UTXOType
  | p2wpkh
  | p2sh_p2wpkh
  | p2pkh
  | p2tr
  | nonEligible
deriving DecidableEq

/-- A `UTXO`; `txid` is modelled as the byte array the hex string denotes
(display order, as written in the field). -/
structure UTXO where
  txid : Bytes
  vout : Nat
  wif : String
  utxoType : UTXOType
deriving DecidableEq

/-- A `Target`: optional address (or payment code) and optional value. -/
structure Target where
  address : Option String
  value : Option Nat
deriving DecidableEq

/-- A `SilentPaymentGroup`: scan key and the `[Bm, value, original index]`
entries collected for it. -/
structure SilentPaymentGroup where
  Bscan : Bytes
  BmValues : List (Bytes × Option Nat × Nat)
deriving DecidableEq

/-- Error outcomes (JavaScript `throw` sites reachable from the embedded
operations). -/
inductive Err
  | decodeError
  | unexpectedVersion
  | noInputs
  | noEligible
  | wifError
  | pointError
  | expectedPrivate
  | addressError
  | sharedSecretError
  | pkError
  | internalError
deriving DecidableEq

/-- External primitives consumed by the library but not implemented in this
repository: node `crypto` SHA-256, `ecpair`'s WIF decoding (`none` models a
throw; the decoded value is the 32-byte private key), the
`@noble/secp256k1` point operations (`none` models both a `null` return and
a caught throw, as in `noble_ecc`'s `throwToNull`), and `bitcoinjs-lib`'s
`address.fromOutputScript`. -/
structure Ecc where
  sha256 : Bytes → Bytes
  fromWIF : String → Option Bytes
  pointFromScalar : Bytes → Option Bytes
  pointAdd : Bytes → Bytes → Option Bytes
  pointMultiply : Bytes → Bytes → Option Bytes
  getSharedSecret : Bytes → Bytes → Option Bytes
  fromOutputScript : Bytes → Option String

/-! ### Scalar arithmetic over the curve order (noble_ecc.ts) -/

/-- The secp256k1 curve order `n` (noble_ecc.ts `CURVE.n`). -/
def nOrder : Nat :=
  115792089237316195423570985008687907852837564279074904382605163141518161494337

/-- Big-endian byte-array-to-integer conversion (`bytesToNumber`). -/
def bytesToNat (b : Bytes) : Nat := b.foldl (fun a x => a * 256 + x) 0

/-- Big-endian serialization into a fixed number of bytes
(`_bigintTo32Bytes` with length 32). -/
def natToBytes : Nat → Nat → Bytes
  | 0, _ => []
  | k + 1, v => natToBytes k (v >>> 8) ++ [v &&& 255]

/-- Embeds `ecc.isPrivate` (noble's `isValidPrivateKey`): a 32-byte value strictly
between 0 and the curve order. -/
def isPrivate (d : Bytes) : Bool :=
  d.length = 32 && decide (0 < bytesToNat d) && decide (bytesToNat d < nOrder)

/-- Embeds `ecc.privateAdd` (the noble_ecc.ts wrapper over `necc.utils.privateAdd`):
requires a valid private key and a 32-byte tweak below the curve order,
returns `(d + t) mod n`, and `none` when that sum reduces to zero (the
wrapper's explicit all-zero check) or when normalization throws. -/
def privateAdd (d t : Bytes) : Option Bytes :=
  if isPrivate d ∧ t.length = 32 ∧ bytesToNat t < nOrder then
    let r := (bytesToNat d + bytesToNat t) % nOrder
    if r = 0 then none else some (natToBytes 32 r)
  else none

/-- Embeds `ecc.privateNegate` (`necc.utils.privateNegate`): `(n - d) mod n`. -/
def privateNegate (d : Bytes) : Bytes :=
  natToBytes 32 ((nOrder - bytesToNat d % nOrder) % nOrder)

/-- Embeds `ecc.privateMultiply` (noble_ecc.ts): it throws `Expected Private` when `d`
is not a valid private key (modelled as `.error`), otherwise computes
`(d * t) mod n` with the 32-byte tweak normalization and returns `none`
(a caught throw) when the tweak is malformed or the product is not a valid
private key. -/
def privateMultiply (d t : Bytes) : Except Err (Option Bytes) :=
  if isPrivate d = false then .error .expectedPrivate
  else if t.length ≠ 32 then .ok none
  else
    let m := (bytesToNat d * bytesToNat t) % nOrder
    if 0 < m ∧ m < nOrder then .ok (some (natToBytes 32 m)) else .ok none

/-! ### Tagged hash and serialization -/

/-- UTF-8 bytes of an ASCII tag string. -/
def strBytes (s : String) : Bytes := s.data.map Char.toNat

/-- Embeds `taggedHash(tag, data) = SHA256(SHA256(tag) ‖ SHA256(tag) ‖ data)`,
parameterized by the external SHA-256 primitive. -/
def taggedHash (sha : Bytes → Bytes) (tag : String) (data : Bytes) : Bytes :=
  let tagHash := sha (strBytes tag)
  sha (tagHash ++ tagHash ++ data)

/-- Embeds `_ser32(i)`: the 4-byte big-endian serialization of a 32-bit unsigned
integer. -/
def _ser32 (i : Nat) : Bytes :=
  [(i >>> 24) &&& 255, (i >>> 16) &&& 255, (i >>> 8) &&& 255, i &&& 255]

/-- The generator point constant `G` (compressed, 33 bytes). -/
def Gbytes : Bytes :=
  [0x02, 0x79, 0xbe, 0x66, 0x7e, 0xf9, 0xdc, 0xbb, 0xac, 0x55, 0xa0, 0x62,
   0x95, 0xce, 0x87, 0x0b, 0x07, 0x02, 0x9b, 0xfc, 0xdb, 0x2d, 0xce, 0x28,
   0xd9, 0x59, 0xf2, 0x81, 0x5b, 0x16, 0xf8, 0x17, 0x98]

/-! ### Outpoint canonicalization (`_outpointsHash`) -/

/-- The 36-byte outpoint formed for a UTXO inside `_outpointsHash`:
`hexToUint8Array(txid).reverse()` followed by `_ser32(vout).reverse()`
(little-endian output index). -/
def outpointOf (u : UTXO) : Bytes := u.txid.reverse ++ (_ser32 u.vout).reverse

/-- Embeds `outpoints.sort(compareUint8Arrays)[0]`: the lexicographically smallest
outpoint; `none` when the UTXO list is empty (the JavaScript code would
throw on the `undefined` element).  The JavaScript sort is modelled by
insertion sort: only the head is consumed and any comparator-correct sort
has the same head. -/
def smallestOutpoint (utxos : List UTXO) : Option Bytes :=
  (List.insertionSort lexLe (utxos.map outpointOf)).head?

/-- Embeds `SilentPayment._outpointsHash(parameters, A)`. -/
def _outpointsHash (sha : Bytes → Bytes) (utxos : List UTXO) (A : Bytes) : Option Bytes :=
  match smallestOutpoint utxos with
  | none => none
  | some sm => some (taggedHash sha "BIP0352/Inputs" (sm ++ A))

/-! ### Sender resolver (`createTransaction`) -/

/-- The payment-code guard in `createTransaction`:
`target.address?.startsWith("sp1")` (case-sensitive, `false` when the
address is absent).  `String.startsWith` is expressed by pattern matching
on the character list. -/
def spGuard (t : Target) : Bool :=
  match t.address with
  | some s =>
    match s.data with
    | 's' :: 'p' :: '1' :: _ => true
    | _ => false
  | none => false

/-- Decoding of a payment code inside `createTransaction`: bech32m decode
with limit 118, shift the version word (a missing or non-zero version is
the `Unexpected version of silent payment code` throw), regroup the rest,
split into the 33-byte scan key and the remaining label key. -/
def decodeSP (s : String) : Except Err (Bytes × Bytes) :=
  match bech32mDecode 118 s with
  | none => .error .decodeError
  | some (_, ws) =>
    match ws with
    | [] => .error .unexpectedVersion
    | v :: rest =>
      if v ≠ 0 then .error .unexpectedVersion
      else
        match fromWords rest with
        | none => .error .decodeError
        | some data => .ok (data.take 33, data.drop 33)

/-- Appends an entry to the first group with a byte-wise equal scan key, or
pushes a fresh group at the end (`silentPaymentGroups.find` + push). -/
def addToGroups (gs : List SilentPaymentGroup) (B Bm : Bytes) (v : Option Nat) (i : Nat) :
    List SilentPaymentGroup :=
  match gs with
  | [] => [⟨B, [(Bm, v, i)]⟩]
  | g :: rest =>
    if byteCompare g.Bscan B = .eq then ⟨g.Bscan, g.BmValues ++ [(Bm, v, i)]⟩ :: rest
    else g :: addToGroups rest B Bm v i

/-- The first phase of `createTransaction`: walk the targets with their
index, copy pass-through targets into the result slots, decode payment
codes and group them by scan key. -/
def phase1 : List Target → Nat → List (Option Target) → List SilentPaymentGroup →
    Except Err (List (Option Target) × List SilentPaymentGroup)
  | [], _, ret, gs => .ok (ret, gs)
  | t :: ts, i, ret, gs =>
    if spGuard t then
      match decodeSP (t.address.getD "") with
      | .error e => .error e
      | .ok (B, Bm) => phase1 ts (i + 1) ret (addToGroups gs B Bm t.value i)
    else phase1 ts (i + 1) (ret.set i (some t)) gs

/-- Key collection inside `_sumPrivkeys`: WIF-decode every UTXO's key
(a malformed WIF throws even for non-eligible UTXOs), skip `non-eligible`
UTXOs, parity-correct `p2tr` keys whose public point has compressed parity
byte `0x03`, and keep `p2wpkh`/`p2sh-p2wpkh`/`p2pkh` keys as they are. -/
def collectKeys (E : Ecc) : List UTXO → Except Err (List Bytes)
  | [] => .ok []
  | u :: us =>
    match E.fromWIF u.wif with
    | none => .error .wifError
    | some key =>
      match u.utxoType with
      | .nonEligible => collectKeys E us
      | .p2tr =>
        match E.pointFromScalar key with
        | none => .error .pointError
        | some P =>
          let key' := if P.head? = some 3 then privateNegate key else key
          (collectKeys E us).map (key' :: ·)
      | .p2wpkh => (collectKeys E us).map (key :: ·)
      | .p2sh_p2wpkh => (collectKeys E us).map (key :: ·)
      | .p2pkh => (collectKeys E us).map (key :: ·)

/-- Embeds `SilentPayment._sumPrivkeys(utxos)`: it throws `No UTXOs provided` on an
empty list, `No eligible UTXOs with private keys found` when no key was
collected, then reduces the keys with `privateAdd` — a `null` result of
which is coerced by `new Uint8Array(null)` to an empty array
(`coerceBytes`). -/
def _sumPrivkeys (E : Ecc) (utxos : List UTXO) : Except Err Bytes :=
  if utxos.isEmpty then .error .noInputs
  else
    match collectKeys E utxos with
    | .error e => .error e
    | .ok [] => .error .noEligible
    | .ok (k :: ks) => .ok (ks.foldl (fun acc key => coerceBytes (privateAdd acc key)) k)

/-- Embeds `SilentPayment.pubkeyToAddress(hex)` applied to the byte form:
prepends the `OP_1 PUSH32` script header and delegates to the external
address codec (`hexToUint8Array("5120" + hex)` composed with
`uint8ArrayToHex` is the identity on the byte level). -/
def pubkeyToAddress (E : Ecc) (xonly : Bytes) : Option String :=
  E.fromOutputScript ([0x51, 0x20] ++ xonly)

/-- The `Pmk = tk·G + Bm` computation for one entry with counter `k`: a
`null` from `pointMultiply` makes `pointAdd` throw-to-`null`, and the
result is coerced by `new Uint8Array(...)`. -/
def pmkOf (E : Ecc) (ecdh : Bytes) (k : Nat) (Bm : Bytes) : Bytes :=
  let tk := taggedHash E.sha256 "BIP0352/SharedSecret" (ecdh ++ _ser32 k)
  coerceBytes
    (match E.pointMultiply Gbytes tk with
     | none => none
     | some x => E.pointAdd x Bm)

/-- The inner loop over one group's `BmValues`: zero-based counter `k`,
taproot-encode each `Pmk` (a throw in `fromOutputScript` propagates), and
write the resolved target at the entry's original index. -/
def resolveEntries (E : Ecc) (ecdh : Bytes) :
    Nat → List (Bytes × Option Nat × Nat) → List (Option Target) →
    Except Err (List (Option Target))
  | _, [], ret => .ok ret
  | k, (Bm, v, i) :: rest, ret =>
    match pubkeyToAddress E ((pmkOf E ecdh k Bm).drop 1) with
    | none => .error .addressError
    | some addr => resolveEntries E ecdh (k + 1) rest (ret.set i (some ⟨some addr, v⟩))

/-- Per-group work in `createTransaction`: `ecdh_shared_secret_step1 =
privateMultiply(outpoint_hash, a)` (its `Expected Private` throw
propagates, a `null` is coerced to empty), the ECDH shared secret (same
coercion), then the entry loop with `k = 0`. -/
def resolveGroup (E : Ecc) (a ophash : Bytes) (ret : List (Option Target))
    (g : SilentPaymentGroup) : Except Err (List (Option Target)) :=
  match privateMultiply ophash a with
  | .error e => .error e
  | .ok s1 =>
    let ecdh := coerceBytes (E.getSharedSecret (coerceBytes s1) g.Bscan)
    resolveEntries E ecdh 0 g.BmValues ret

/-- Folds `resolveGroup` over the groups. -/
def resolveGroups (E : Ecc) (a ophash : Bytes) :
    List SilentPaymentGroup → List (Option Target) → Except Err (List (Option Target))
  | [], ret => .ok ret
  | g :: gs, ret =>
    match resolveGroup E a ophash ret g with
    | .error e => .error e
    | .ok ret' => resolveGroups E a ophash gs ret'

/-- Embeds `SilentPayment.createTransaction(utxos, targets)`.  The result models
the preallocated `new Array(targets.length)`: a slot is `none` while
unassigned.  When no payment-code group was built the pass-through result
is returned without touching any key material. -/
def createTransaction (E : Ecc) (utxos : List UTXO) (targets : List Target) :
    Except Err (List (Option Target)) :=
  match phase1 targets 0 (List.replicate targets.length none) [] with
  | .error e => .error e
  | .ok (ret, gs) =>
    if gs.isEmpty then .ok ret
    else
      match _sumPrivkeys E utxos with
      | .error e => .error e
      | .ok a =>
        let A := coerceBytes (E.pointFromScalar a)
        match _outpointsHash E.sha256 utxos A with
        | none => .error .internalError
        | some ophash => resolveGroups E a ophash gs ret

/-- Embeds `SilentPayment.isPaymentCodeValid(pc)`: decode inside a fallible
context, shift the version word, compare with 0. -/
def isPaymentCodeValid (pc : String) : Bool :=
  match bech32mDecode 118 pc with
  | none => false
  | some (_, ws) => ws.head? = some 0

/-! ### Receiver side (`computeTweakForTx` outpoints, `detectOurUtxos`) -/

/-- A transaction input as used by `computeTweakForTx`: `inn.hash` is the
txid already in internal byte order, `inn.index` the output index. -/
structure TxIn where
  hash : Bytes
  index : Nat
deriving DecidableEq

/-- The smallest-outpoint selection inside `computeTweakForTx`: outpoints
are `inn.hash ‖ _ser32(inn.index).reverse()`, sorted, first taken. -/
def txSmallestOutpoint (ins : List TxIn) : Option Bytes :=
  (List.insertionSort lexLe
    (ins.map (fun inn => inn.hash ++ (_ser32 inn.index).reverse))).head?

/-- A transaction output (its locking script). -/
structure TxOut where
  script : Bytes
deriving DecidableEq

/-- The transaction data consumed by `detectOurUtxos`: `id` models
`tx.getId()` at the byte level. -/
structure Tx where
  id : Bytes
  outs : List TxOut
deriving DecidableEq

/-- Modelled from the spec: `seedToCode`'s result — scan key pair and spend
key pair derived from the seed through the external BIP-32 derivation
primitive at the fixed BIP-352 paths. -/
structure Code where
  Bscan : Bytes
  bscan : Bytes
  Bspend : Bytes
  bspend : Bytes

/-- The output loop of `detectOurUtxos`: for each output whose script is
exactly `OP_1 PUSH32 ‖ P_k`, derive `d = privateAdd(bspend, t_k)`; when
that addition degenerates (`null`) the code logs and `continue`s — the
output is skipped, no error is raised. -/
def scanOuts (toWIF : Bytes → String) (txid : Bytes) (bspend pub tk : Bytes) :
    Nat → List TxOut → List UTXO
  | _, [] => []
  | vout, o :: os =>
    if o.script = [0x51, 0x20] ++ pub then
      match privateAdd bspend tk with
      | none => scanOuts toWIF txid bspend pub tk (vout + 1) os
      | some d => ⟨txid, vout, toWIF d, .p2tr⟩ :: scanOuts toWIF txid bspend pub tk (vout + 1) os
    else scanOuts toWIF txid bspend pub tk (vout + 1) os

/-- Embeds `SilentPayment.detectOurUtxos(tx, seed, tweakHex)`, with the
seed-derived code and the WIF encoder (`ecpair`) as parameters.  A `null`
shared secret makes `concatUint8Arrays` throw; a `null` `P_k` makes
`uint8ArrayToHex` throw; both are modelled as errors.  `k` is fixed to 0
(labels beyond 0 are a documented extension point). -/
def detectOurUtxos (E : Ecc) (toWIF : Bytes → String) (code : Code) (tx : Tx)
    (tweak : Bytes) : Except Err (List UTXO) :=
  match E.getSharedSecret code.bscan tweak with
  | none => .error .sharedSecretError
  | some ss =>
    let tk := taggedHash E.sha256 "BIP0352/SharedSecret" (ss ++ _ser32 0)
    match
      (match E.pointMultiply Gbytes tk with
       | none => none
       | some x => E.pointAdd x code.Bspend) with
    | none => .error .pkError
    | some Pk =>
      let pub := if Pk.head? = some 2 ∨ Pk.head? = some 3 then Pk.drop 1 else Pk
      .ok (scanOuts toWIF tx.id code.bspend pub tk 0 tx.outs)

/-! ### Specification-side descriptions of the grouping phase -/

/-- First group whose scan key compares byte-wise equal to `B`
(`silentPaymentGroups.find`). -/
def findGroup : List SilentPaymentGroup → Bytes → Option SilentPaymentGroup
  | [], _ => none
  | g :: rest, B => if byteCompare g.Bscan B = .eq then some g else findGroup rest B

/-- The entry list held for scan key `B` ([] when no group exists). -/
def entriesOf (gs : List SilentPaymentGroup) (B : Bytes) : List (Bytes × Option Nat × Nat) :=
  match findGroup gs B with
  | none => []
  | some g => g.BmValues

/-- The `(label key, value, index)` entries that the targets starting at
index `i` contribute to scan key `B`, in target order. -/
def spEntriesFrom : List Target → Nat → Bytes → List (Bytes × Option Nat × Nat)
  | [], _, _ => []
  | t :: ts, i, B =>
    if spGuard t then
      match decodeSP (t.address.getD "") with
      | .ok (B', Bm) =>
        if B' = B then (Bm, t.value, i) :: spEntriesFrom ts (i + 1) B
        else spEntriesFrom ts (i + 1) B
      | .error _ => spEntriesFrom ts (i + 1) B
    else spEntriesFrom ts (i + 1) B

/-- Scan keys of the groups, in group order. -/
def groupKeys (gs : List SilentPaymentGroup) : List Bytes := gs.map (·.Bscan)

/-- The per-UTXO key contribution as the specification words it: a
`non-eligible` UTXO contributes nothing; a `p2tr` UTXO contributes the
negated scalar exactly when its point's compressed parity byte is `0x03`
and the scalar as-is otherwise; `p2wpkh`, `p2sh-p2wpkh` and `p2pkh` UTXOs
always contribute their scalar as-is, never parity-corrected. -/
def keyContribSpec (E : Ecc) (u : UTXO) : Except Err (List Bytes) :=
  match E.fromWIF u.wif with
  | none => .error .wifError
  | some key =>
    match u.utxoType with
    | .nonEligible => .ok []
    | .p2tr =>
      match E.pointFromScalar key with
      | none => .error .pointError
      | some P => .ok [if P.head? = some 3 then privateNegate key else key]
    | .p2wpkh => .ok [key]
    | .p2sh_p2wpkh => .ok [key]
    | .p2pkh => .ok [key]

/-- Concatenation of the independent per-UTXO contributions in list
order. -/
def contribsConcat (E : Ecc) : List UTXO → Except Err (List Bytes)
  | [] => .ok []
  | u :: us =>
    match keyContribSpec E u with
    | .error e => .error e
    | .ok c =>
      match contribsConcat E us with
      | .error e => .error e
      | .ok rest => .ok (c ++ rest)

deriving instance DecidableEq for Except

/-! ### Concrete fixtures used by witnesses and counterexamples -/

/-- An all-zero 32-byte transaction id. -/
def txid0 : Bytes := List.replicate 32 0

/-- A UTXO with output index 1 (used to exhibit the endianness of the
outpoint serialization). -/
def u1 : UTXO := ⟨txid0, 1, "w", .p2wpkh⟩

/-- A constant stand-in for the external SHA-256 primitive. -/
def shaW : Bytes → Bytes := fun _ => List.replicate 32 1

/-- A 33-byte compressed-point stand-in with even-parity prefix. -/
def P33 : Bytes := 2 :: List.replicate 32 7

/-- The 32-byte key with scalar value 1. -/
def key1 : Bytes := natToBytes 32 1

/-- The 32-byte key with scalar value `n - 1` (the negation of 1). -/
def keyNeg1 : Bytes := natToBytes 32 (nOrder - 1)

/-- A trivial instantiation of the external primitives, sufficient for
exercising the control flow of the embedded operations. -/
def E0 : Ecc where
  sha256 := shaW
  fromWIF := fun _ => some key1
  pointFromScalar := fun _ => some P33
  pointAdd := fun _ _ => some P33
  pointMultiply := fun _ _ => some P33
  getSharedSecret := fun _ _ => some (List.replicate 32 2)
  fromOutputScript := fun _ => some "bc1p-stub-address"

/-- The engine for the zero-sum fixture: two WIF strings decoding to the
keys 1 and `n - 1`. -/
def E8 : Ecc where
  sha256 := shaW
  fromWIF := fun w => if w = "w1" then some key1 else some keyNeg1
  pointFromScalar := fun _ => some P33
  pointAdd := fun _ _ => some P33
  pointMultiply := fun _ _ => some P33
  getSharedSecret := fun _ _ => some (List.replicate 32 2)
  fromOutputScript := fun _ => some "bc1p-stub-address"

/-- Fixture UTXOs whose keys sum to zero modulo the curve order. -/
def utxoK1 : UTXO := ⟨txid0, 0, "w1", .p2wpkh⟩

/-- Second half of the zero-sum pair. -/
def utxoK2 : UTXO := ⟨txid0, 0, "w2", .p2wpkh⟩

/-- A valid version-0 payment code (from the repository's tests). -/
def pc116 : String :=
  "sp1qqgste7k9hx0qftg6qmwlkqtwuy6cycyavzmzj85c6qdfhjdpdjtdgqjuexzk6murw56suy3e0rd2cgqvycxttddwsvgxe2usfpxumr70xc9pkqwv"

/-- The same string with its final character changed: checksum failure. -/
def pc116bad : String :=
  "sp1qqgste7k9hx0qftg6qmwlkqtwuy6cycyavzmzj85c6qdfhjdpdjtdgqjuexzk6murw56suy3e0rd2cgqvycxttddwsvgxe2usfpxumr70xc9pkqww"

/-- The receiver-scanner engine for the degenerate-derivation fixture:
`t_k` hashes to the scalar 1 and the expected output key is `P33`. -/
def E7 : Ecc where
  sha256 := fun _ => key1
  fromWIF := fun _ => some key1
  pointFromScalar := fun _ => some P33
  pointAdd := fun _ _ => some P33
  pointMultiply := fun _ _ => some P33
  getSharedSecret := fun _ _ => some (List.replicate 32 2)
  fromOutputScript := fun _ => some "bc1p-stub-address"

/-- A receiver whose spend scalar is `n - 1`, so that adding the tweak 1
degenerates to zero. -/
def code7 : Code := ⟨P33, key1, P33, keyNeg1⟩

/-- A transaction with a single output paying to the expected taproot
script for `code7` under `E7`. -/
def tx7 : Tx := ⟨txid0, [⟨[0x51, 0x20] ++ P33.drop 1⟩]⟩

/-- The scan key encoded in `pc116`. -/
def Bscan0 : Bytes :=
  [2, 32, 188, 250, 197, 185, 158, 4, 173, 26, 6, 221, 251, 1, 110, 225,
   53, 130, 96, 157, 96, 182, 41, 30, 152, 208, 26, 155, 201, 161, 108,
   150, 212]

/-- The spend (label) key encoded in `pc116`. -/
def Bm0 : Bytes :=
  [2, 92, 201, 133, 109, 111, 131, 117, 53, 14, 18, 57, 120, 218, 172, 32,
   12, 38, 12, 181, 181, 174, 131, 16, 108, 171, 144, 72, 77, 205, 143,
   207, 54]

/-- A payment-code target carrying `pc116`. -/
def tgtPC : Target := ⟨some pc116, some 5⟩

/-- A non-eligible UTXO. -/
def uNE : UTXO := ⟨txid0, 0, "w", .nonEligible⟩

/-- An ordinary on-chain-address target. -/
def tgtOnchain : Target :=
  ⟨some "bc1pkrwcgdrye4e2uyfjchs54nucpwa7gq66hpzr68hcpxp739mxx29smlt4hf", some 7⟩

/-- The single group built from two copies of `tgtPC`. -/
def gs4 : List SilentPaymentGroup :=
  [⟨Bscan0, [(Bm0, some 5, 0), (Bm0, some 5, 1)]⟩]

/-- Pass-through targets: an upper-case encoding of a payment code, a
target without an address, and an ordinary on-chain address. -/
def tgtsPass : List Target :=
  [⟨some "SP1QQGSTE7K9HX0QFTG6QMWLKQTWUY6CYCYAVZMZJ85C6QDFHJDPDJTDGQJUEXZK6MURW56SUY3E0RD2CGQVYCXTTDDWSVGXE2USFPXUMR70XC9PKQWV", some 5⟩,
   ⟨none, none⟩,
   ⟨some "bc1pkrwcgdrye4e2uyfjchs54nucpwa7gq66hpzr68hcpxp739mxx29smlt4hf", some 7⟩]

theorem byteCompare_self (a : Bytes) : byteCompare a a = .eq := by
  induction a with
  | nil => rfl
  | cons x xs ih => simp [byteCompare, ih]

theorem byteCompare_eq_iff {a b : Bytes} : byteCompare a b = .eq ↔ a = b := by
  induction a generalizing b with
  | nil => cases b <;> simp [byteCompare]
  | cons x xs ih =>
    cases b with
    | nil => simp [byteCompare]
    | cons y ys =>
      by_cases h1 : x < y
      · simp [byteCompare, h1]
        omega
      · by_cases h2 : y < x
        · simp [byteCompare, h1, h2]
          omega
        · have hxy : x = y := by omega
          simp [byteCompare, h1, h2, hxy, ih]

theorem lexLe_refl (a : Bytes) : lexLe a a := by
  simp [lexLe, byteCompare_self]

theorem byteCompare_swap (a b : Bytes) : byteCompare b a = (byteCompare a b).swap := by
  induction a generalizing b with
  | nil => cases b <;> rfl
  | cons x xs ih =>
    cases b with
    | nil => rfl
    | cons y ys =>
      by_cases h1 : x < y
      · have h2 : ¬ y < x := by omega
        simp [byteCompare, h1, h2, Ordering.swap]
      · by_cases h2 : y < x
        · simp [byteCompare, h1, h2, Ordering.swap]
        · simp [byteCompare, h1, h2, ih]

theorem lexLe_total (a b : Bytes) : lexLe a b ∨ lexLe b a := by
  by_cases h : byteCompare a b = .gt
  · right
    simp [lexLe, byteCompare_swap a b, h, Ordering.swap]
  · left
    exact h

theorem lexLe_antisymm {a b : Bytes} (h1 : lexLe a b) (h2 : lexLe b a) : a = b := by
  unfold lexLe at h1 h2
  rw [byteCompare_swap a b] at h2
  rcases hc : byteCompare a b with _ | _ | _
  · rw [hc] at h2
    simp [Ordering.swap] at h2
  · exact byteCompare_eq_iff.mp hc
  · exact absurd hc h1

theorem lexLe_trans {a b c : Bytes} (h1 : lexLe a b) (h2 : lexLe b c) : lexLe a c := by
  induction a generalizing b c with
  | nil =>
    cases c with
    | nil => exact lexLe_refl _
    | cons z zs => simp [lexLe, byteCompare]
  | cons x xs ih =>
    cases b with
    | nil => simp [lexLe, byteCompare] at h1
    | cons y ys =>
      cases c with
      | nil => simp [lexLe, byteCompare] at h2
      | cons z zs =>
        unfold lexLe byteCompare at h1 h2 ⊢
        by_cases hxy : x < y
        · by_cases hyz : y < z
          · have : x < z := by omega
            simp [this]
          · by_cases hzy : z < y
            · simp [hyz, hzy] at h2
            · have hyz' : y = z := by omega
              have : x < z := by omega
              simp [this]
        · by_cases hyx : y < x
          · simp [hxy, hyx] at h1
          · have hxy' : x = y := by omega
            subst hxy'
            by_cases hyz : x < z
            · simp [hyz]
            · by_cases hzy : z < x
              · simp [hyz, hzy] at h2
              · simp [hyz, hzy] at h1 h2 ⊢
                exact ih h1 h2

instance : IsTotal Bytes lexLe := ⟨lexLe_total⟩

instance : IsTrans Bytes lexLe := ⟨fun _ _ _ => lexLe_trans⟩

/-- The head of an insertion sort by `lexLe` is a member of the list and a
lower bound for it (the lexicographically smallest element). -/
theorem head_insertionSort_min {l : List Bytes} {m : Bytes}
    (hm : (List.insertionSort lexLe l).head? = some m) :
    m ∈ l ∧ ∀ x ∈ l, lexLe m x := by
  have hperm := List.perm_insertionSort lexLe l
  have hsorted := List.sorted_insertionSort lexLe l
  obtain ⟨rest, hs⟩ : ∃ rest, List.insertionSort lexLe l = m :: rest := by
    cases hsort : List.insertionSort lexLe l with
    | nil => rw [hsort] at hm; simp at hm
    | cons h0 rest =>
      rw [hsort] at hm
      simp at hm
      exact ⟨rest, by rw [hm]⟩
  rw [hs] at hperm hsorted
  refine ⟨hperm.mem_iff.mp (List.mem_cons_self _ _), ?_⟩
  intro x hx
  rcases List.mem_cons.mp (hperm.mem_iff.mpr hx) with h | h
  · subst h
    exact lexLe_refl _
  · exact (List.pairwise_cons.mp hsorted).1 x h

/-- A list whose insertion sort has no head is empty. -/
theorem sortHead_none {l : List Bytes}
    (hs : (List.insertionSort lexLe l).head? = none) : l = [] := by
  have hp := List.perm_insertionSort lexLe l
  have he : List.insertionSort lexLe l = [] := List.head?_eq_none_iff.mp hs
  rw [he] at hp
  exact hp.symm.eq_nil

/-- Sorting two lists that are permutations of each other yields the same
head (the minimum is permutation-invariant, by antisymmetry). -/
theorem head_insertionSort_perm {l l' : List Bytes} (h : l.Perm l') :
    (List.insertionSort lexLe l).head? = (List.insertionSort lexLe l').head? := by
  rcases hs : (List.insertionSort lexLe l).head? with _ | m
  · have hl : l = [] := sortHead_none hs
    subst hl
    have hl' : l' = [] := h.symm.eq_nil
    subst hl'
    rfl
  · rcases hs' : (List.insertionSort lexLe l').head? with _ | m'
    · have hl' : l' = [] := sortHead_none hs'
      subst hl'
      have hl : l = [] := h.eq_nil
      subst hl
      simp at hs
    · have h1 := head_insertionSort_min hs
      have h2 := head_insertionSort_min hs'
      have hle : lexLe m m' := h1.2 m' (h.symm.mem_iff.mp h2.1)
      have hge : lexLe m' m := h2.2 m (h.mem_iff.mp h1.1)
      rw [lexLe_antisymm hle hge]

theorem entriesOf_nil (B : Bytes) : entriesOf [] B = [] := rfl

theorem spEntriesFrom_cons (t : Target) (ts : List Target) (i : Nat) (B : Bytes) :
    spEntriesFrom (t :: ts) i B =
      if spGuard t then
        match decodeSP (t.address.getD "") with
        | .ok (B', Bm) =>
          if B' = B then (Bm, t.value, i) :: spEntriesFrom ts (i + 1) B
          else spEntriesFrom ts (i + 1) B
        | .error _ => spEntriesFrom ts (i + 1) B
      else spEntriesFrom ts (i + 1) B := rfl

theorem findGroup_mem {gs : List SilentPaymentGroup} {B : Bytes} {g : SilentPaymentGroup}
    (h : findGroup gs B = some g) : g ∈ gs ∧ g.Bscan = B := by
  induction gs with
  | nil => simp [findGroup] at h
  | cons g0 rest ih =>
    unfold findGroup at h
    by_cases hc : byteCompare g0.Bscan B = .eq
    · simp [hc] at h
      subst h
      exact ⟨List.mem_cons_self _ _, byteCompare_eq_iff.mp hc⟩
    · simp [hc] at h
      obtain ⟨hm, he⟩ := ih h
      exact ⟨List.mem_cons_of_mem _ hm, he⟩

theorem entriesOf_addToGroups (gs : List SilentPaymentGroup) (B Bm : Bytes)
    (v : Option Nat) (i : Nat) (B' : Bytes) :
    entriesOf (addToGroups gs B Bm v i) B' =
      if B = B' then entriesOf gs B' ++ [(Bm, v, i)] else entriesOf gs B' := by
  induction gs with
  | nil =>
    by_cases hb : B = B'
    · subst hb
      simp [addToGroups, entriesOf, findGroup, byteCompare_self]
    · have : byteCompare B B' ≠ .eq := fun hc => hb (byteCompare_eq_iff.mp hc)
      simp [addToGroups, entriesOf, findGroup, this, hb]
  | cons g rest ih =>
    by_cases hg : byteCompare g.Bscan B = .eq
    · have hgB : g.Bscan = B := byteCompare_eq_iff.mp hg
      by_cases hg' : byteCompare g.Bscan B' = .eq
      · have hgB' : g.Bscan = B' := byteCompare_eq_iff.mp hg'
        have hBB' : B = B' := hgB ▸ hgB'
        simp [addToGroups, hg, entriesOf, findGroup, hg', hBB']
      · have hBB' : B ≠ B' := fun he => hg' (byteCompare_eq_iff.mpr (he ▸ hgB))
        simp [addToGroups, hg, entriesOf, findGroup, hg', hBB']
    · by_cases hg' : byteCompare g.Bscan B' = .eq
      · have hgB' : g.Bscan = B' := byteCompare_eq_iff.mp hg'
        have hBB' : B ≠ B' := fun he => hg (byteCompare_eq_iff.mpr (he ▸ hgB'))
        simp [addToGroups, hg, entriesOf, findGroup, hg', hBB']
      · have := ih
        simp only [entriesOf] at this
        simp [addToGroups, hg, entriesOf, findGroup, hg', this]

/-- Group contents after `phase1`: the entries for each scan key are the
previous entries followed by the matching entries of the remaining
targets, in target order. -/
theorem phase1_entries {ts : List Target} {i : Nat} {ret : List (Option Target)}
    {gs : List SilentPaymentGroup} {ret' : List (Option Target)}
    {gs' : List SilentPaymentGroup}
    (h : phase1 ts i ret gs = .ok (ret', gs')) (B : Bytes) :
    entriesOf gs' B = entriesOf gs B ++ spEntriesFrom ts i B := by
  induction ts generalizing i ret gs with
  | nil =>
    simp [phase1] at h
    simp [h.2, spEntriesFrom]
  | cons t ts ih =>
    unfold phase1 at h
    by_cases hg : spGuard t
    · simp only [hg, if_true] at h
      cases hd : decodeSP (t.address.getD "") with
      | error e => rw [hd] at h; exact absurd h (by simp)
      | ok BBm =>
        rw [hd] at h
        obtain ⟨B0, Bm0⟩ := BBm
        have := ih h
        rw [this, entriesOf_addToGroups, spEntriesFrom_cons]
        simp only [hg, if_true, hd]
        by_cases hb : B0 = B
        · simp [hb, List.append_assoc]
        · simp [hb]
    · simp only [hg, if_false, Bool.false_eq_true] at h
      have := ih h
      rw [this, spEntriesFrom_cons]
      simp [hg]

theorem groupKeys_addToGroups (gs : List SilentPaymentGroup) (B Bm : Bytes)
    (v : Option Nat) (i : Nat) :
    groupKeys (addToGroups gs B Bm v i) = groupKeys gs
      ∨ (groupKeys (addToGroups gs B Bm v i) = groupKeys gs ++ [B] ∧ B ∉ groupKeys gs) := by
  induction gs with
  | nil => right; simp [addToGroups, groupKeys]
  | cons g rest ih =>
    by_cases hg : byteCompare g.Bscan B = .eq
    · left
      simp [addToGroups, hg, groupKeys]
    · have hne : g.Bscan ≠ B := fun he => hg (byteCompare_eq_iff.mpr he)
      rcases ih with h1 | ⟨h1, h2⟩
      · left
        simp only [addToGroups, hg, if_false, groupKeys, List.map_cons]
        rw [show (addToGroups rest B Bm v i).map (·.Bscan) = groupKeys (addToGroups rest B Bm v i) from rfl, h1]
        rfl
      · right
        constructor
        · simp only [addToGroups, hg, if_false, groupKeys, List.map_cons]
          rw [show (addToGroups rest B Bm v i).map (·.Bscan) = groupKeys (addToGroups rest B Bm v i) from rfl, h1]
          rfl
        · simp only [groupKeys, List.map_cons, List.mem_cons]
          rintro (he | hm)
          · exact hne he.symm
          · exact h2 hm

theorem phase1_keys_nodup {ts : List Target} {i : Nat} {ret : List (Option Target)}
    {gs : List SilentPaymentGroup} {ret' : List (Option Target)}
    {gs' : List SilentPaymentGroup}
    (h : phase1 ts i ret gs = .ok (ret', gs')) (hnd : (groupKeys gs).Nodup) :
    (groupKeys gs').Nodup := by
  induction ts generalizing i ret gs with
  | nil =>
    simp [phase1] at h
    rw [← h.2]
    exact hnd
  | cons t ts ih =>
    unfold phase1 at h
    by_cases hg : spGuard t
    · simp only [hg, if_true] at h
      cases hd : decodeSP (t.address.getD "") with
      | error e => rw [hd] at h; exact absurd h (by simp)
      | ok BBm =>
        rw [hd] at h
        obtain ⟨B0, Bm0⟩ := BBm
        refine ih h ?_
        rcases groupKeys_addToGroups gs B0 Bm0 t.value i with h1 | ⟨h1, h2⟩
        · rw [h1]; exact hnd
        · rw [h1]
          simp [List.nodup_append, hnd, h2]
    · simp only [hg, if_false, Bool.false_eq_true] at h
      exact ih h hnd

theorem phase1_length {ts : List Target} {i : Nat} {ret : List (Option Target)}
    {gs : List SilentPaymentGroup} {ret' : List (Option Target)}
    {gs' : List SilentPaymentGroup}
    (h : phase1 ts i ret gs = .ok (ret', gs')) : ret'.length = ret.length := by
  induction ts generalizing i ret gs with
  | nil =>
    simp [phase1] at h
    rw [← h.1]
  | cons t ts ih =>
    unfold phase1 at h
    by_cases hg : spGuard t
    · simp only [hg, if_true] at h
      cases hd : decodeSP (t.address.getD "") with
      | error e => rw [hd] at h; exact absurd h (by simp)
      | ok BBm =>
        rw [hd] at h
        obtain ⟨B0, Bm0⟩ := BBm
        exact ih h
    · simp only [hg, if_false, Bool.false_eq_true] at h
      have := ih h
      rwa [List.length_set] at this

/-- Result slots after `phase1`: slots outside the processed range are
untouched, a pass-through target is written at its own index, a
payment-code target leaves its slot as it was. -/
theorem phase1_slots {ts : List Target} {i : Nat} {ret : List (Option Target)}
    {gs : List SilentPaymentGroup} {ret' : List (Option Target)}
    {gs' : List SilentPaymentGroup}
    (h : phase1 ts i ret gs = .ok (ret', gs')) (hb : i + ts.length ≤ ret.length) :
    (∀ j, (j < i ∨ i + ts.length ≤ j) → ret'[j]? = ret[j]?) ∧
    (∀ p (hp : p < ts.length),
      ret'[i + p]? = if spGuard ts[p] then ret[i + p]? else some (some ts[p])) := by
  induction ts generalizing i ret gs with
  | nil =>
    simp [phase1] at h
    constructor
    · intro j _
      rw [← h.1]
    · intro p hp
      exact absurd hp (by simp)
  | cons t ts ih =>
    unfold phase1 at h
    by_cases hg : spGuard t
    · simp only [hg, if_true] at h
      cases hd : decodeSP (t.address.getD "") with
      | error e => rw [hd] at h; exact absurd h (by simp)
      | ok BBm =>
        rw [hd] at h
        obtain ⟨B0, Bm0⟩ := BBm
        have hb' : (i + 1) + ts.length ≤ ret.length := by
          simp at hb
          omega
        obtain ⟨huntouched, hslots⟩ := ih h hb'
        constructor
        · intro j hj
          refine huntouched j ?_
          simp at hj ⊢
          omega
        · intro p hp
          cases p with
          | zero =>
            simp [hg]
            have := huntouched i (by omega)
            simpa using this
          | succ p' =>
            have hp' : p' < ts.length := by simpa using hp
            have := hslots p' hp'
            rw [show i + (p' + 1) = (i + 1) + p' by omega]
            simpa using this
    · simp only [hg, if_false, Bool.false_eq_true] at h
      have hb' : (i + 1) + ts.length ≤ (ret.set i (some t)).length := by
        rw [List.length_set]
        simp at hb
        omega
      obtain ⟨huntouched, hslots⟩ := ih h hb'
      have hilt : i < ret.length := by simp at hb; omega
      constructor
      · intro j hj
        have hne : i ≠ j := by
          simp at hj
          omega
        have := huntouched j (by simp at hj ⊢; omega)
        rw [this, List.getElem?_set_ne hne]
      · intro p hp
        cases p with
        | zero =>
          have := huntouched i (by omega)
          simp only [Nat.add_zero] at this ⊢
          rw [this, List.getElem?_set_self hilt]
          simp [hg]
        | succ p' =>
          have hp' : p' < ts.length := by simpa using hp
          have := hslots p' hp'
          rw [show i + (p' + 1) = (i + 1) + p' by omega]
          simp only [List.getElem_cons_succ]
          rw [this]
          have hne : i ≠ (i + 1) + p' := by omega
          rw [List.getElem?_set_ne hne]

/-- Under a successful `phase1`, every guarded target decodes. -/
theorem phase1_decodes {ts : List Target} {i : Nat} {ret : List (Option Target)}
    {gs : List SilentPaymentGroup} {ret' : List (Option Target)}
    {gs' : List SilentPaymentGroup}
    (h : phase1 ts i ret gs = .ok (ret', gs')) :
    ∀ t ∈ ts, spGuard t → ∃ B Bm, decodeSP (t.address.getD "") = .ok (B, Bm) := by
  induction ts generalizing i ret gs with
  | nil => intro t ht; exact absurd ht (by simp)
  | cons t0 ts ih =>
    unfold phase1 at h
    intro t ht hg
    rcases List.mem_cons.mp ht with he | hm
    · subst he
      simp only [hg, if_true] at h
      cases hd : decodeSP (t.address.getD "") with
      | error e => rw [hd] at h; exact absurd h (by simp)
      | ok BBm =>
        obtain ⟨B0, Bm0⟩ := BBm
        exact ⟨B0, Bm0, rfl⟩
    · by_cases hg0 : spGuard t0
      · simp only [hg0, if_true] at h
        cases hd : decodeSP (t0.address.getD "") with
        | error e => rw [hd] at h; exact absurd h (by simp)
        | ok BBm =>
          rw [hd] at h
          obtain ⟨B0, Bm0⟩ := BBm
          exact ih h t hm hg
      · simp only [hg0, if_false, Bool.false_eq_true] at h
        exact ih h t hm hg

/-- Entry indices produced by `spEntriesFrom` lie in the processed range. -/
theorem spEntriesFrom_index_range {ts : List Target} {i : Nat} {B : Bytes} :
    ∀ e ∈ spEntriesFrom ts i B, i ≤ e.2.2 ∧ e.2.2 < i + ts.length := by
  induction ts generalizing i with
  | nil => simp [spEntriesFrom]
  | cons t ts ih =>
    intro e he
    rw [spEntriesFrom_cons] at he
    by_cases hg : spGuard t
    · simp only [hg, if_true] at he
      cases hd : decodeSP (t.address.getD "") with
      | error e0 =>
        rw [hd] at he
        have := ih e he
        simp
        omega
      | ok BBm =>
        rw [hd] at he
        obtain ⟨B0, Bm0⟩ := BBm
        by_cases hb : B0 = B
        · simp only [hb, if_true] at he
          rcases List.mem_cons.mp he with he0 | hm
          · subst he0
            simp
          · have := ih _ hm
            simp
            omega
        · simp only [hb, if_false] at he
          have := ih _ he
          simp
          omega
    · simp only [hg, if_false, Bool.false_eq_true] at he
      have := ih _ he
      simp
      omega

/-- Entry indices are strictly increasing within one scan key. -/
theorem spEntriesFrom_pairwise {ts : List Target} {i : Nat} {B : Bytes} :
    List.Pairwise (fun a b => a.2.2 < b.2.2) (spEntriesFrom ts i B) := by
  induction ts generalizing i with
  | nil => simp [spEntriesFrom]
  | cons t ts ih =>
    rw [spEntriesFrom_cons]
    by_cases hg : spGuard t
    · simp only [hg, if_true]
      cases hd : decodeSP (t.address.getD "") with
      | error e0 => exact ih
      | ok BBm =>
        obtain ⟨B0, Bm0⟩ := BBm
        by_cases hb : B0 = B
        · simp only [hb, if_true]
          refine List.pairwise_cons.mpr ⟨?_, ih⟩
          intro e he
          have := spEntriesFrom_index_range e he
          simp
          omega
        · simp only [hb, if_false]
          exact ih
    · simp only [hg, if_false, Bool.false_eq_true]
      exact ih

/-- Each entry comes from the guarded target at its own index, whose code
decodes to the entry's scan and label keys and whose value it carries. -/
theorem spEntriesFrom_content {ts : List Target} {i : Nat} {B : Bytes} :
    ∀ e ∈ spEntriesFrom ts i B, ∃ p, e.2.2 = i + p ∧ ∃ hp : p < ts.length,
      spGuard ts[p] ∧ decodeSP (ts[p].address.getD "") = .ok (B, e.1)
        ∧ ts[p].value = e.2.1 := by
  induction ts generalizing i with
  | nil => simp [spEntriesFrom]
  | cons t ts ih =>
    intro e he
    rw [spEntriesFrom_cons] at he
    by_cases hg : spGuard t
    · simp only [hg, if_true] at he
      cases hd : decodeSP (t.address.getD "") with
      | error e0 =>
        rw [hd] at he
        obtain ⟨p, hpe, hp, hrest⟩ := ih _ he
        exact ⟨p + 1, by omega, by simpa using hp, by simpa using hrest⟩
      | ok BBm =>
        rw [hd] at he
        obtain ⟨B0, Bm0⟩ := BBm
        by_cases hb : B0 = B
        · simp only [hb, if_true] at he
          rcases List.mem_cons.mp he with he0 | hm
          · refine ⟨0, by simp [he0], by simp, ?_⟩
            subst he0
            simp [hg, hd, hb]
          · obtain ⟨p, hpe, hp, hrest⟩ := ih _ hm
            exact ⟨p + 1, by omega, by simpa using hp, by simpa using hrest⟩
        · simp only [hb, if_false] at he
          obtain ⟨p, hpe, hp, hrest⟩ := ih _ he
          exact ⟨p + 1, by omega, by simpa using hp, by simpa using hrest⟩
    · simp only [hg, if_false, Bool.false_eq_true] at he
      obtain ⟨p, hpe, hp, hrest⟩ := ih _ he
      exact ⟨p + 1, by omega, by simpa using hp, by simpa using hrest⟩

/-- A guarded, decodable target at position `p` contributes its entry to
its scan key's list. -/
theorem spEntriesFrom_mem {ts : List Target} {B Bm : Bytes} :
    ∀ {p : Nat} (hp : p < ts.length) (i : Nat), spGuard ts[p] →
      decodeSP (ts[p].address.getD "") = .ok (B, Bm) →
      (Bm, ts[p].value, i + p) ∈ spEntriesFrom ts i B := by
  induction ts with
  | nil => intro p hp; exact absurd hp (by simp)
  | cons t ts ih =>
    intro p hp i hg hd
    cases p with
    | zero =>
      simp at hg hd
      rw [spEntriesFrom_cons]
      simp [hg, hd]
    | succ p' =>
      have hp' : p' < ts.length := by simpa using hp
      simp only [List.getElem_cons_succ] at hg hd
      have := ih hp' (i + 1) hg hd
      rw [spEntriesFrom_cons]
      have harith : i + (p' + 1) = (i + 1) + p' := by omega
      by_cases hg0 : spGuard t
      · simp only [hg0, if_true]
        cases hd0 : decodeSP (t.address.getD "") with
        | error e0 => rw [harith]; exact this
        | ok BBm =>
          obtain ⟨B0, Bm0⟩ := BBm
          by_cases hb : B0 = B
          · simp only [hb, if_true]
            rw [harith]
            exact List.mem_cons_of_mem _ this
          · simp only [hb, if_false]
            rw [harith]
            exact this
      · simp only [hg0, if_false, Bool.false_eq_true]
        rw [harith]
        exact this

/-- An index appears under at most one scan key, with a unique entry. -/
theorem spEntriesFrom_unique {ts : List Target} {i : Nat} {B1 B2 Bm1 Bm2 : Bytes}
    {v1 v2 : Option Nat} {j : Nat}
    (h1 : (Bm1, v1, j) ∈ spEntriesFrom ts i B1)
    (h2 : (Bm2, v2, j) ∈ spEntriesFrom ts i B2) : B1 = B2 ∧ Bm1 = Bm2 ∧ v1 = v2 := by
  obtain ⟨p1, hp1e, hp1, hg1, hd1, hv1⟩ := spEntriesFrom_content _ h1
  obtain ⟨p2, hp2e, hp2, hg2, hd2, hv2⟩ := spEntriesFrom_content _ h2
  simp at hp1e hp2e
  have hpp : p1 = p2 := by omega
  subst hpp
  rw [hd1] at hd2
  simp at hd2 hv1 hv2
  exact ⟨hd2.1, hd2.2, by rw [← hv1, hv2]⟩

/-- With pairwise distinct scan keys, the entry list found for a member
group's key is that group's own list. -/
theorem entriesOf_of_mem {gs : List SilentPaymentGroup} {g : SilentPaymentGroup}
    (hnd : (groupKeys gs).Nodup) (hg : g ∈ gs) : entriesOf gs g.Bscan = g.BmValues := by
  induction gs with
  | nil => exact absurd hg (by simp)
  | cons g0 rest ih =>
    rcases List.mem_cons.mp hg with he | hm
    · subst he
      simp [entriesOf, findGroup, byteCompare_self]
    · have hne : g0.Bscan ≠ g.Bscan := by
        have h1 : g.Bscan ∈ groupKeys rest := List.mem_map_of_mem _ hm
        have h2 : g0.Bscan ∉ groupKeys rest := (List.nodup_cons.mp hnd).1
        intro he
        rw [← he] at h1
        exact h2 h1
      have hc : byteCompare g0.Bscan g.Bscan ≠ .eq := fun hc => hne (byteCompare_eq_iff.mp hc)
      simp only [entriesOf, findGroup, hc, if_false]
      have := ih (List.nodup_cons.mp hnd).2 hm
      simpa [entriesOf] using this

/-- Behaviour of the per-group entry loop: the result keeps its length,
slots at indices foreign to the entries are untouched, and the entry at
position `p` writes, at its own original index, the address computed with
counter `k + p` paired with the entry's value. -/
theorem resolveEntries_spec {E : Ecc} {ecdh : Bytes} {k : Nat}
    {entries : List (Bytes × Option Nat × Nat)} {ret out : List (Option Target)}
    (h : resolveEntries E ecdh k entries ret = .ok out)
    (hnd : List.Pairwise (fun a b => a.2.2 ≠ b.2.2) entries)
    (hb : ∀ e ∈ entries, e.2.2 < ret.length) :
    out.length = ret.length ∧
    (∀ j, (∀ e ∈ entries, e.2.2 ≠ j) → out[j]? = ret[j]?) ∧
    (∀ p (hp : p < entries.length), ∃ addr,
      pubkeyToAddress E ((pmkOf E ecdh (k + p) entries[p].1).drop 1) = some addr ∧
      out[entries[p].2.2]? = some (some ⟨some addr, entries[p].2.1⟩)) := by
  induction entries generalizing k ret with
  | nil =>
    simp [resolveEntries] at h
    subst h
    exact ⟨rfl, fun j _ => rfl, fun p hp => absurd hp (by simp)⟩
  | cons e rest ih =>
    obtain ⟨Bm, v, i⟩ := e
    unfold resolveEntries at h
    cases ha : pubkeyToAddress E ((pmkOf E ecdh k Bm).drop 1) with
    | none => rw [ha] at h; exact absurd h (by simp)
    | some addr =>
      rw [ha] at h
      have hilt : i < ret.length := by
        have := hb (Bm, v, i) (List.mem_cons_self _ _)
        simpa using this
      have hb' : ∀ e ∈ rest, e.2.2 < (ret.set i (some ⟨some addr, v⟩)).length := by
        intro e he
        rw [List.length_set]
        exact hb e (List.mem_cons_of_mem _ he)
      obtain ⟨hlen, huntouched, hslots⟩ := ih h (List.pairwise_cons.mp hnd).2 hb'
      have hresti : ∀ e ∈ rest, e.2.2 ≠ i := by
        intro e he hcon
        exact (List.pairwise_cons.mp hnd).1 e he hcon.symm
      refine ⟨by rw [hlen, List.length_set], ?_, ?_⟩
      · intro j hj
        have hji : i ≠ j := by
          have := hj (Bm, v, i) (List.mem_cons_self _ _)
          simpa using this
        have := huntouched j (fun e he => hj e (List.mem_cons_of_mem _ he))
        rw [this, List.getElem?_set_ne hji]
      · intro p hp
        cases p with
        | zero =>
          refine ⟨addr, by simpa using ha, ?_⟩
          have := huntouched i hresti
          simp only [List.getElem_cons_zero] at this ⊢
          rw [this, List.getElem?_set_self hilt]
        | succ p' =>
          have hp' : p' < rest.length := by simpa using hp
          obtain ⟨addr', ha', hs'⟩ := hslots p' hp'
          refine ⟨addr', ?_, ?_⟩
          · rw [show k + (p' + 1) = (k + 1) + p' by omega]
            simpa using ha'
          · simpa using hs'

/-- Behaviour of the group loop, deriving per-slot facts from
`resolveEntries_spec`: untouched slots persist and every entry of every
group ends up written at its own index. -/
theorem resolveGroups_spec {E : Ecc} {a ophash : Bytes}
    {gsl : List SilentPaymentGroup} {ret out : List (Option Target)}
    (h : resolveGroups E a ophash gsl ret = .ok out)
    (hnd : ∀ g ∈ gsl, List.Pairwise (fun x y => x.2.2 ≠ y.2.2) g.BmValues)
    (hdisj : List.Pairwise
      (fun g g' => ∀ e ∈ g.BmValues, ∀ e' ∈ g'.BmValues, e.2.2 ≠ e'.2.2) gsl)
    (hb : ∀ g ∈ gsl, ∀ e ∈ g.BmValues, e.2.2 < ret.length) :
    out.length = ret.length ∧
    (∀ j, (∀ g ∈ gsl, ∀ e ∈ g.BmValues, e.2.2 ≠ j) → out[j]? = ret[j]?) ∧
    (∀ g ∈ gsl, ∀ p (hp : p < g.BmValues.length), ∃ addr,
      out[g.BmValues[p].2.2]? = some (some ⟨some addr, g.BmValues[p].2.1⟩)) := by
  induction gsl generalizing ret with
  | nil =>
    simp [resolveGroups] at h
    subst h
    exact ⟨rfl, fun j _ => rfl, fun g hg => absurd hg (by simp)⟩
  | cons g gsl ih =>
    unfold resolveGroups at h
    cases hg : resolveGroup E a ophash ret g with
    | error e => rw [hg] at h; exact absurd h (by simp)
    | ok ret1 =>
      rw [hg] at h
      unfold resolveGroup at hg
      cases hpm : privateMultiply ophash a with
      | error e => rw [hpm] at hg; exact absurd hg (by simp)
      | ok s1 =>
        rw [hpm] at hg
        simp only at hg
        obtain ⟨hlen1, huntouched1, hslots1⟩ :=
          resolveEntries_spec hg (hnd g (List.mem_cons_self _ _))
            (hb g (List.mem_cons_self _ _))
        have hb' : ∀ g' ∈ gsl, ∀ e ∈ g'.BmValues, e.2.2 < ret1.length := by
          intro g' hg' e he
          rw [hlen1]
          exact hb g' (List.mem_cons_of_mem _ hg') e he
        obtain ⟨hlen2, huntouched2, hslots2⟩ := ih h
          (fun g' hg' => hnd g' (List.mem_cons_of_mem _ hg'))
          (List.pairwise_cons.mp hdisj).2 hb'
        refine ⟨by rw [hlen2, hlen1], ?_, ?_⟩
        · intro j hj
          have h2 := huntouched2 j (fun g' hg' e he => hj g' (List.mem_cons_of_mem _ hg') e he)
          have h1 := huntouched1 j (fun e he => hj g (List.mem_cons_self _ _) e he)
          rw [h2, h1]
        · intro g' hg' p hp
          rcases List.mem_cons.mp hg' with he | hm
          · subst he
            obtain ⟨addr, _, hs⟩ := hslots1 p hp
            refine ⟨addr, ?_⟩
            have hfor : ∀ g2 ∈ gsl, ∀ e2 ∈ g2.BmValues, e2.2.2 ≠ g'.BmValues[p].2.2 := by
              intro g2 hg2 e2 he2
              have hd := (List.pairwise_cons.mp hdisj).1 g2 hg2
              have := hd (g'.BmValues[p]) (List.getElem_mem hp) e2 he2
              exact fun hcontra => this hcontra.symm
            rw [huntouched2 _ hfor, hs]
          · exact hslots2 g' hm p hp

/-! ### Claims -/

/-- C1 (amended): for every non-empty UTXO list and aggregate key `A`,
`_outpointsHash` forms for each UTXO the 36-byte outpoint consisting of the
natural-byte-order transaction id followed by the *little-endian* 4-byte
output index (the byte-reversal of the big-endian `_ser32`), sorts the
outpoints by unsigned byte-wise comparison, takes the lexicographically
smallest, and returns `taggedHash("BIP0352/Inputs", smallest ‖ A)`.  The
original claim's big-endian output index is refuted by the counterexample theorem. -/
theorem claim_C1 (sha : Bytes → Bytes) (utxos : List UTXO) (A : Bytes)
    (h : utxos ≠ []) :
    ∃ sm, smallestOutpoint utxos = some sm
      ∧ sm ∈ utxos.map outpointOf
      ∧ (∀ o ∈ utxos.map outpointOf, lexLe sm o)
      ∧ _outpointsHash sha utxos A = some (taggedHash sha "BIP0352/Inputs" (sm ++ A))
      ∧ (∀ u : UTXO, outpointOf u = u.txid.reverse ++ (_ser32 u.vout).reverse)
      ∧ (∀ u : UTXO, u.txid.length = 32 → (outpointOf u).length = 36) := by
  obtain ⟨sm, hsm⟩ : ∃ sm, smallestOutpoint utxos = some sm := by
    unfold smallestOutpoint
    cases hs : (List.insertionSort lexLe (utxos.map outpointOf)).head? with
    | none =>
      have := sortHead_none hs
      simp at this
      exact absurd this h
    | some m => exact ⟨m, rfl⟩
  have hsm' : (List.insertionSort lexLe (utxos.map outpointOf)).head? = some sm := hsm
  have hmin := head_insertionSort_min hsm'
  refine ⟨sm, hsm, hmin.1, hmin.2, ?_, fun u => rfl, ?_⟩
  · unfold _outpointsHash
    rw [hsm]
  · intro u hlen
    simp [outpointOf, _ser32, hlen]

/-- C1 witness: the amended statement at a concrete single-UTXO input. -/
theorem claim_C1_witness :
    ([u1] ≠ ([] : List UTXO)) ∧
    (∃ sm, smallestOutpoint [u1] = some sm
      ∧ sm ∈ [u1].map outpointOf
      ∧ (∀ o ∈ [u1].map outpointOf, lexLe sm o)
      ∧ _outpointsHash shaW [u1] [] = some (taggedHash shaW "BIP0352/Inputs" (sm ++ []))
      ∧ (∀ u : UTXO, outpointOf u = u.txid.reverse ++ (_ser32 u.vout).reverse)
      ∧ (∀ u : UTXO, u.txid.length = 32 → (outpointOf u).length = 36)) :=
  ⟨by decide, claim_C1 shaW [u1] [] (by decide)⟩

/-- C1 counterexample: at `vout = 1` the outpoint the code forms is *not*
`txid-natural-order ‖ big-endian ser32(vout)` — the code appends the
byte-reversed (little-endian) index, so the claim as stated is false. -/
theorem claim_C1_counterexample :
    ¬ (outpointOf u1 = u1.txid.reverse ++ _ser32 u1.vout) := by decide

/-- C6: permuting the UTXO list changes neither the chosen smallest
outpoint nor the `_outpointsHash` value, and permuting a transaction's
input list does not change `computeTweakForTx`'s chosen smallest
outpoint. -/
theorem claim_C6 (sha : Bytes → Bytes) {utxos utxos' : List UTXO}
    {ins ins' : List TxIn} (A : Bytes)
    (h1 : utxos.Perm utxos') (h2 : ins.Perm ins') :
    smallestOutpoint utxos = smallestOutpoint utxos'
    ∧ _outpointsHash sha utxos A = _outpointsHash sha utxos' A
    ∧ txSmallestOutpoint ins = txSmallestOutpoint ins' := by
  have hs : smallestOutpoint utxos = smallestOutpoint utxos' :=
    head_insertionSort_perm (h1.map outpointOf)
  refine ⟨hs, ?_, head_insertionSort_perm (h2.map _)⟩
  unfold _outpointsHash
  rw [hs]

/-- C6 witness: a concrete two-element swap on both lists. -/
theorem claim_C6_witness :
    ([u1, utxoK1].Perm [utxoK1, u1]
      ∧ [(⟨txid0, 0⟩ : TxIn), ⟨txid0, 1⟩].Perm [⟨txid0, 1⟩, ⟨txid0, 0⟩])
    ∧ (smallestOutpoint [u1, utxoK1] = smallestOutpoint [utxoK1, u1]
      ∧ _outpointsHash shaW [u1, utxoK1] [] = _outpointsHash shaW [utxoK1, u1] []
      ∧ txSmallestOutpoint [⟨txid0, 0⟩, ⟨txid0, 1⟩]
          = txSmallestOutpoint [⟨txid0, 1⟩, ⟨txid0, 0⟩]) :=
  ⟨⟨List.Perm.swap utxoK1 u1 [],
      List.Perm.swap (⟨txid0, 1⟩ : TxIn) (⟨txid0, 0⟩ : TxIn) []⟩,
    claim_C6 shaW [] (List.Perm.swap utxoK1 u1 [])
      (List.Perm.swap (⟨txid0, 1⟩ : TxIn) (⟨txid0, 0⟩ : TxIn) [])⟩

/-- C9: `isPaymentCodeValid` is a total boolean function that returns
`true` exactly when bech32m decoding (limit 118) succeeds and the first
decoded word is 0; concretely it accepts a known-good code and rejects a
checksum-corrupted variant and a too-short string. -/
theorem claim_C9 :
    (∀ pc : String, isPaymentCodeValid pc = true ↔
      ∃ hrp ws, bech32mDecode 118 pc = some (hrp, ws) ∧ ws.head? = some 0)
    ∧ isPaymentCodeValid pc116 = true
    ∧ isPaymentCodeValid pc116bad = false
    ∧ isPaymentCodeValid "sp1qq" = false := by
  refine ⟨?_, by decide, by decide, by decide⟩
  intro pc
  unfold isPaymentCodeValid
  cases hd : bech32mDecode 118 pc with
  | none => simp
  | some pr =>
    obtain ⟨hrp, ws⟩ := pr
    simp only [decide_eq_true_eq]
    constructor
    · intro hw
      exact ⟨hrp, ws, rfl, hw⟩
    · rintro ⟨hrp', ws', heq, hw⟩
      simp at heq
      obtain ⟨he1, he2⟩ := heq
      subst he2
      exact hw

/-- C5: the key collection of `_sumPrivkeys` is exactly the concatenation
of per-UTXO contributions, where only `p2tr` keys are parity-corrected
(negated exactly when the compressed parity byte is `0x03`), the three
non-taproot eligible types contribute their scalar as-is, and
`non-eligible` UTXOs contribute nothing. -/
theorem claim_C5 (E : Ecc) (utxos : List UTXO) :
    collectKeys E utxos = contribsConcat E utxos := by
  induction utxos with
  | nil => rfl
  | cons u us ih =>
    simp only [collectKeys, contribsConcat, keyContribSpec]
    cases hw : E.fromWIF u.wif with
    | none => simp
    | some key =>
      simp only
      cases ht : u.utxoType with
      | nonEligible =>
        simp only [ih]
        cases hc : contribsConcat E us <;> simp
      | p2tr =>
        cases hp : E.pointFromScalar key with
        | none => simp
        | some P =>
          simp only [ih]
          cases hc : contribsConcat E us <;> simp [Except.map]
      | p2wpkh =>
        simp only [ih]
        cases hc : contribsConcat E us <;> simp [Except.map]
      | p2sh_p2wpkh =>
        simp only [ih]
        cases hc : contribsConcat E us <;> simp [Except.map]
      | p2pkh =>
        simp only [ih]
        cases hc : contribsConcat E us <;> simp [Except.map]

/-- C5 witness: the factorization evaluated on one UTXO of every type
(parity byte of `P33` is `0x02`, so the `p2tr` key stays as-is; a second
engine returning an odd-parity point exercises the negation). -/
theorem claim_C5_witness :
    collectKeys E0 [⟨txid0, 0, "w", .nonEligible⟩, ⟨txid0, 0, "w", .p2tr⟩,
        ⟨txid0, 0, "w", .p2wpkh⟩, ⟨txid0, 0, "w", .p2sh_p2wpkh⟩, ⟨txid0, 0, "w", .p2pkh⟩]
      = contribsConcat E0 [⟨txid0, 0, "w", .nonEligible⟩, ⟨txid0, 0, "w", .p2tr⟩,
        ⟨txid0, 0, "w", .p2wpkh⟩, ⟨txid0, 0, "w", .p2sh_p2wpkh⟩, ⟨txid0, 0, "w", .p2pkh⟩] :=
  claim_C5 E0 _

/-- A degenerate spending-scalar addition empties the scan result: every
matching output is skipped. -/
theorem scanOuts_degenerate {toWIF : Bytes → String} {txid bspend pub tk : Bytes}
    (hd : privateAdd bspend tk = none) :
    ∀ (vout : Nat) (outs : List TxOut), scanOuts toWIF txid bspend pub tk vout outs = [] := by
  intro vout outs
  induction outs generalizing vout with
  | nil => rfl
  | cons o os ih =>
    unfold scanOuts
    by_cases hs : o.script = [0x51, 0x20] ++ pub
    · simp only [hs, if_true, hd]
      exact ih _
    · simp only [hs, if_false]
      exact ih _

/-- C7 (amended): when an output matches the expected taproot script but
the spending-scalar addition `d = bspend + t_0` degenerates to zero, the
scanner logs, skips that output, and returns normally — no
`InvalidDerivation` error surfaces to the caller.  With `k` fixed at 0 the
degenerate addition affects every output, so the result is `ok []`.  The
original claim (an error surfaces) is refuted by the counterexample
theorem. -/
theorem claim_C7 (E : Ecc) (toWIF : Bytes → String) (code : Code) (tx : Tx)
    (tweak ss Pk : Bytes)
    (hss : E.getSharedSecret code.bscan tweak = some ss)
    (hpk : (match E.pointMultiply Gbytes
              (taggedHash E.sha256 "BIP0352/SharedSecret" (ss ++ _ser32 0)) with
            | none => none
            | some x => E.pointAdd x code.Bspend) = some Pk)
    (hd : privateAdd code.bspend
        (taggedHash E.sha256 "BIP0352/SharedSecret" (ss ++ _ser32 0)) = none) :
    detectOurUtxos E toWIF code tx tweak = .ok [] := by
  unfold detectOurUtxos
  rw [hss]
  simp only
  rw [hpk]
  simp only
  rw [scanOuts_degenerate hd]

/-- C7 witness: the amended statement at the concrete degenerate fixture. -/
theorem claim_C7_witness :
    (E7.getSharedSecret code7.bscan (natToBytes 32 9) = some (List.replicate 32 2))
    ∧ ((match E7.pointMultiply Gbytes
          (taggedHash E7.sha256 "BIP0352/SharedSecret"
            (List.replicate 32 2 ++ _ser32 0)) with
        | none => none
        | some x => E7.pointAdd x code7.Bspend) = some P33)
    ∧ (privateAdd code7.bspend
        (taggedHash E7.sha256 "BIP0352/SharedSecret"
          (List.replicate 32 2 ++ _ser32 0)) = none)
    ∧ detectOurUtxos E7 (fun _ => "wif") code7 tx7 (natToBytes 32 9) = .ok [] :=
  ⟨by decide, by decide, by decide,
    claim_C7 E7 (fun _ => "wif") code7 tx7 (natToBytes 32 9) (List.replicate 32 2) P33
      (by decide) (by decide) (by decide)⟩

/-- C7 counterexample: the transaction's only output matches the expected
taproot script, the addition `bspend + t_0` degenerates (`privateAdd`
returns null), and `detectOurUtxos` nevertheless returns `ok []` — it
skips the output instead of failing with an error, contradicting the
claim that an `InvalidDerivation` error surfaces to the caller. -/
theorem claim_C7_counterexample :
    ((tx7.outs.map TxOut.script) = [[0x51, 0x20] ++ P33.drop 1])
    ∧ privateAdd code7.bspend
        (taggedHash E7.sha256 "BIP0352/SharedSecret"
          (List.replicate 32 2 ++ _ser32 0)) = none
    ∧ detectOurUtxos E7 (fun _ => "wif") code7 tx7 (natToBytes 32 9) = .ok [] := by
  exact ⟨by decide, by decide, by decide⟩

/-- Non-eligible UTXOs whose WIFs decode contribute no keys. -/
theorem collectKeys_nonEligible {E : Ecc} {utxos : List UTXO}
    (h1 : ∀ u ∈ utxos, u.utxoType = .nonEligible)
    (h2 : ∀ u ∈ utxos, (E.fromWIF u.wif).isSome) :
    collectKeys E utxos = .ok [] := by
  induction utxos with
  | nil => rfl
  | cons u us ih =>
    obtain ⟨k, hk⟩ := Option.isSome_iff_exists.mp (h2 u (List.mem_cons_self _ _))
    unfold collectKeys
    rw [hk, h1 u (List.mem_cons_self _ _)]
    exact ih (fun u hu => h1 u (List.mem_cons_of_mem _ hu))
      (fun u hu => h2 u (List.mem_cons_of_mem _ hu))

/-- A successful `phase1` run with a guarded target yields at least one
group. -/
theorem phase1_groups_nonempty {targets : List Target}
    {ret : List (Option Target)} {gs : List SilentPaymentGroup}
    (hp : phase1 targets 0 (List.replicate targets.length none) [] = .ok (ret, gs))
    (hsp : ∃ t ∈ targets, spGuard t = true) : gs ≠ [] := by
  obtain ⟨t, ht, hg⟩ := hsp
  obtain ⟨B, Bm, hd⟩ := phase1_decodes hp t ht hg
  obtain ⟨p, hplt, hpe⟩ := List.getElem_of_mem ht
  have hmem : (Bm, targets[p].value, 0 + p) ∈ spEntriesFrom targets 0 B := by
    refine spEntriesFrom_mem hplt 0 ?_ ?_
    · rw [hpe]; exact hg
    · rw [hpe]; exact hd
  have hent := phase1_entries hp B
  rw [entriesOf_nil] at hent
  simp only [List.nil_append] at hent
  intro hgs
  subst hgs
  rw [entriesOf_nil] at hent
  rw [← hent] at hmem
  simp at hmem

/-- C3: with at least one (decodable) payment-code target, resolution
fails with `No UTXOs provided` when the UTXO list is empty, and with
`No eligible UTXOs with private keys found` when the list is non-empty but
every UTXO is of type `non-eligible` (their WIFs must decode, since
`ECPair.fromWIF` runs before the type switch). -/
theorem claim_C3 (E : Ecc) (targets : List Target) (utxos : List UTXO)
    (ret : List (Option Target)) (gs : List SilentPaymentGroup)
    (hp : phase1 targets 0 (List.replicate targets.length none) [] = .ok (ret, gs))
    (hsp : ∃ t ∈ targets, spGuard t = true) :
    (utxos = [] → createTransaction E utxos targets = .error .noInputs)
    ∧ ((∀ u ∈ utxos, u.utxoType = .nonEligible) →
        (∀ u ∈ utxos, (E.fromWIF u.wif).isSome) →
        utxos ≠ [] → createTransaction E utxos targets = .error .noEligible) := by
  have hgs := phase1_groups_nonempty hp hsp
  cases gs with
  | nil => exact absurd rfl hgs
  | cons g gs' =>
    constructor
    · intro he
      subst he
      unfold createTransaction
      rw [hp]
      rfl
    · intro hall hwif hne
      unfold createTransaction
      rw [hp]
      have hsum : _sumPrivkeys E utxos = .error .noEligible := by
        unfold _sumPrivkeys
        rw [if_neg (by simpa using hne), collectKeys_nonEligible hall hwif]
      simp only [List.isEmpty_cons, Bool.false_eq_true, if_false, hsum]

/-- C3 witness: both failure modes at a concrete payment-code target. -/
theorem claim_C3_witness :
    (phase1 [tgtPC] 0 (List.replicate 1 none) []
        = .ok ([none], [⟨Bscan0, [(Bm0, some 5, 0)]⟩])
      ∧ (∃ t ∈ [tgtPC], spGuard t = true))
    ∧ createTransaction E0 [] [tgtPC] = .error .noInputs
    ∧ createTransaction E0 [uNE] [tgtPC] = .error .noEligible :=
  ⟨⟨by decide, ⟨tgtPC, by decide, by decide⟩⟩,
   (claim_C3 E0 [tgtPC] [] [none] [⟨Bscan0, [(Bm0, some 5, 0)]⟩] (by decide)
     ⟨tgtPC, by decide, by decide⟩).1 rfl,
   (claim_C3 E0 [tgtPC] [uNE] [none] [⟨Bscan0, [(Bm0, some 5, 0)]⟩] (by decide)
     ⟨tgtPC, by decide, by decide⟩).2 (by decide) (by decide) (by decide)⟩

/-- A run over targets none of which is guarded leaves the groups alone. -/
theorem phase1_passthrough {ts : List Target} (h : ∀ t ∈ ts, spGuard t = false) :
    ∀ (i : Nat) (ret : List (Option Target)) (gs : List SilentPaymentGroup),
      ∃ ret', phase1 ts i ret gs = .ok (ret', gs) := by
  induction ts with
  | nil => intro i ret gs; exact ⟨ret, rfl⟩
  | cons t ts ih =>
    intro i ret gs
    have hg := h t (List.mem_cons_self _ _)
    obtain ⟨ret', hr⟩ := ih (fun t ht => h t (List.mem_cons_of_mem _ ht)) (i + 1)
      (ret.set i (some t)) gs
    refine ⟨ret', ?_⟩
    unfold phase1
    rw [hg]
    simpa using hr

/-- C10: a target is decoded as a silent-payment code iff its address is
present and begins with the literal lowercase prefix `sp1`; when no target
is guarded — including targets with no address, upper-case codes, or other
prefixes — the input list is returned unchanged (slot-wise `some`-wrapped
in the preallocated array model) and nothing is decoded: the result does
not depend on any UTXO or key material. -/
theorem claim_C10 (E : Ecc) (utxos : List UTXO) :
    (∀ t : Target, spGuard t = true ↔
      ∃ s rest, t.address = some s ∧ s.data = 's' :: 'p' :: '1' :: rest)
    ∧ (∀ targets : List Target, (∀ t ∈ targets, spGuard t = false) →
        createTransaction E utxos targets = .ok (targets.map some)) := by
  constructor
  · intro t
    unfold spGuard
    cases haddr : t.address with
    | none => simp
    | some s =>
      dsimp only
      constructor
      · intro hg
        split at hg
        · rename_i rest heq
          exact ⟨s, rest, rfl, heq⟩
        · simp at hg
      · rintro ⟨s', rest, haddr', hdata⟩
        have hss : s' = s := by
          simp at haddr'
          exact haddr'.symm
        subst hss
        rw [hdata]
        rfl
  · intro targets hall
    obtain ⟨ret', hp⟩ := phase1_passthrough hall 0 (List.replicate targets.length none) []
    unfold createTransaction
    rw [hp]
    simp only [List.isEmpty_nil, if_true]
    congr 1
    have hlen := phase1_length hp
    obtain ⟨hout, hslots⟩ := phase1_slots hp (by simp)
    apply List.ext_getElem?
    intro j
    by_cases hj : j < targets.length
    · have hs := hslots j hj
      rw [hall targets[j] (List.getElem_mem hj)] at hs
      simp only [Nat.zero_add, Bool.false_eq_true, if_false] at hs
      rw [hs]
      simp [List.getElem?_eq_getElem hj]
    · have h1 : ret'[j]? = none := by
        apply List.getElem?_eq_none
        rw [hlen, List.length_replicate]
        omega
      rw [h1]
      symm
      apply List.getElem?_eq_none
      simp
      omega

/-- C10 witness: an upper-case code, an address-less target and an
on-chain address all pass through unchanged. -/
theorem claim_C10_witness :
    (∀ t ∈ tgtsPass, spGuard t = false)
    ∧ createTransaction E0 [u1] tgtsPass = .ok (tgtsPass.map some) :=
  ⟨by decide, (claim_C10 E0 [u1]).2 tgtsPass (by decide)⟩

/-- C8 (amended): when the eligible keys sum to zero modulo the curve
order, `privateAdd` returns null inside the reduce and
`new Uint8Array(null)` coerces it to an *empty* byte array:
`_sumPrivkeys` returns `ok []` instead of failing at the point of
degeneration.  The degenerate empty aggregate then flows onward — with the
fixture engine, `createTransaction` even completes without any error and
resolves a wrong-but-valid-looking output (`privateMultiply`'s
`Expected Private` guard inspects the outpoint hash, not the aggregate, and
the null product of the empty tweak is again coerced to empty).  The
original claim (an immediate failure, no substituted empty value) is
refuted by the counterexample theorem. -/
theorem claim_C8 (E : Ecc) (x1 x2 : UTXO) (k1 k2 : Bytes)
    (ht1 : x1.utxoType = .p2wpkh) (ht2 : x2.utxoType = .p2wpkh)
    (hw1 : E.fromWIF x1.wif = some k1) (hw2 : E.fromWIF x2.wif = some k2)
    (hk1 : isPrivate k1 = true) (hk2len : k2.length = 32)
    (hk2lt : bytesToNat k2 < nOrder)
    (hsum : (bytesToNat k1 + bytesToNat k2) % nOrder = 0) :
    _sumPrivkeys E [x1, x2] = .ok []
    ∧ createTransaction E8 [utxoK1, utxoK2] [tgtPC]
        = .ok [some ⟨some "bc1p-stub-address", some 5⟩] := by
  have hadd : privateAdd k1 k2 = none := by
    unfold privateAdd
    rw [if_pos ⟨hk1, hk2len, hk2lt⟩, if_pos hsum]
  have hcollect : collectKeys E [x1, x2] = .ok [k1, k2] := by
    unfold collectKeys
    rw [hw1, ht1]
    unfold collectKeys
    rw [hw2, ht2]
    rfl
  have hsumk : _sumPrivkeys E [x1, x2] = .ok [] := by
    unfold _sumPrivkeys
    rw [if_neg (by simp), hcollect]
    simp [hadd, coerceBytes]
  exact ⟨hsumk, by decide⟩

/-- C8 witness: the amended statement at the concrete zero-sum fixture. -/
theorem claim_C8_witness :
    (utxoK1.utxoType = .p2wpkh ∧ utxoK2.utxoType = .p2wpkh
      ∧ E8.fromWIF utxoK1.wif = some key1 ∧ E8.fromWIF utxoK2.wif = some keyNeg1
      ∧ isPrivate key1 = true ∧ keyNeg1.length = 32
      ∧ bytesToNat keyNeg1 < nOrder
      ∧ (bytesToNat key1 + bytesToNat keyNeg1) % nOrder = 0)
    ∧ _sumPrivkeys E8 [utxoK1, utxoK2] = .ok []
    ∧ createTransaction E8 [utxoK1, utxoK2] [tgtPC]
        = .ok [some ⟨some "bc1p-stub-address", some 5⟩] := by
  have h := claim_C8 E8 utxoK1 utxoK2 key1 keyNeg1 rfl rfl (by decide) (by decide)
    (by decide) (by decide) (by decide) (by decide)
  exact ⟨⟨rfl, rfl, by decide, by decide, by decide, by decide, by decide, by decide⟩,
    h.1, h.2⟩

/-- C8 counterexample: with eligible keys 1 and `n - 1`, the scalar sum
degenerates (`privateAdd` returns null), yet `_sumPrivkeys` returns
`ok []` — the null was coerced to an empty byte sequence — and
`createTransaction` then completes without error, resolving a target from
the substituted empty values, contradicting the claim that the
computation fails with an error. -/
theorem claim_C8_counterexample :
    privateAdd key1 keyNeg1 = none
    ∧ _sumPrivkeys E8 [utxoK1, utxoK2] = .ok []
    ∧ createTransaction E8 [utxoK1, utxoK2] [tgtPC]
        = .ok [some ⟨some "bc1p-stub-address", some 5⟩] := by
  exact ⟨by decide, by decide, by decide⟩

/-- C4: groups carry pairwise distinct scan keys (targets sharing a scan
key join a single group); a group's entries are exactly the guarded
targets decoding to its scan key, in target-list order with strictly
increasing original indices; and the per-output counter of the entry loop
starts at 0 for each group and equals the entry's position in the group —
so within a group it takes the values 0, 1, 2, … in appearance order, and
it resets for each distinct scan-key group. -/
theorem claim_C4 (E : Ecc) (targets : List Target) (ret : List (Option Target))
    (gs : List SilentPaymentGroup)
    (hp : phase1 targets 0 (List.replicate targets.length none) [] = .ok (ret, gs)) :
    List.Pairwise (fun g g' => g.Bscan ≠ g'.Bscan) gs
    ∧ (∀ g ∈ gs, g.BmValues = spEntriesFrom targets 0 g.Bscan
        ∧ List.Pairwise (fun a b => a.2.2 < b.2.2) g.BmValues)
    ∧ (∀ (ecdh : Bytes) (g : SilentPaymentGroup), g ∈ gs →
        ∀ (ret0 out : List (Option Target)),
        resolveEntries E ecdh 0 g.BmValues ret0 = .ok out →
        (∀ e ∈ g.BmValues, e.2.2 < ret0.length) →
        ∀ p (hp2 : p < g.BmValues.length), ∃ addr,
          pubkeyToAddress E ((pmkOf E ecdh p (g.BmValues[p]).1).drop 1) = some addr ∧
          out[(g.BmValues[p]).2.2]? = some (some ⟨some addr, (g.BmValues[p]).2.1⟩)) := by
  have hnd : (groupKeys gs).Nodup := phase1_keys_nodup hp (by simp [groupKeys])
  have hentries : ∀ g ∈ gs, g.BmValues = spEntriesFrom targets 0 g.Bscan := by
    intro g hg
    have h1 := entriesOf_of_mem hnd hg
    have h2 := phase1_entries hp g.Bscan
    rw [entriesOf_nil, List.nil_append] at h2
    rw [← h1, h2]
  refine ⟨List.pairwise_map.mp hnd, ?_, ?_⟩
  · intro g hg
    refine ⟨hentries g hg, ?_⟩
    rw [hentries g hg]
    exact spEntriesFrom_pairwise
  · intro ecdh g hg ret0 out hre hb p hp2
    have hpw : List.Pairwise (fun a b => a.2.2 ≠ b.2.2) g.BmValues := by
      rw [hentries g hg]
      exact spEntriesFrom_pairwise.imp (fun hlt => Nat.ne_of_lt hlt)
    obtain ⟨_, _, hslots⟩ := resolveEntries_spec hre hpw hb
    obtain ⟨addr, ha, hs⟩ := hslots p hp2
    rw [Nat.zero_add] at ha
    exact ⟨addr, ha, hs⟩

/-- C4 witness: two targets with the same payment code form one group with
indices 0 and 1, and the entry loop resolves them with counters 0 and 1. -/
theorem claim_C4_witness :
    (phase1 [tgtPC, tgtPC] 0 (List.replicate 2 none) [] = .ok ([none, none], gs4))
    ∧ (List.Pairwise (fun g g' => g.Bscan ≠ g'.Bscan) gs4
      ∧ (∀ g ∈ gs4, g.BmValues = spEntriesFrom [tgtPC, tgtPC] 0 g.Bscan
          ∧ List.Pairwise (fun a b => a.2.2 < b.2.2) g.BmValues)
      ∧ (∀ (ecdh : Bytes) (g : SilentPaymentGroup), g ∈ gs4 →
          ∀ (ret0 out : List (Option Target)),
          resolveEntries E0 ecdh 0 g.BmValues ret0 = .ok out →
          (∀ e ∈ g.BmValues, e.2.2 < ret0.length) →
          ∀ p (hp2 : p < g.BmValues.length), ∃ addr,
            pubkeyToAddress E0 ((pmkOf E0 ecdh p (g.BmValues[p]).1).drop 1) = some addr ∧
            out[(g.BmValues[p]).2.2]? = some (some ⟨some addr, (g.BmValues[p]).2.1⟩))) :=
  ⟨by decide,
    claim_C4 E0 [tgtPC, tgtPC] [none, none] gs4 (by decide)⟩

/-- C2: a successful `createTransaction` returns a list of the same length
as the target list; every target that is not a payment code appears
unchanged at its original index; and every payment-code target's resolved
address-and-value pair (the original value, a freshly resolved address) is
written at that target's original index. -/
theorem claim_C2 (E : Ecc) (utxos : List UTXO) (targets : List Target)
    (ret : List (Option Target))
    (h : createTransaction E utxos targets = .ok ret) :
    ret.length = targets.length
    ∧ (∀ j (hj : j < targets.length), spGuard targets[j] = false →
        ret[j]? = some (some targets[j]))
    ∧ (∀ j (hj : j < targets.length), spGuard targets[j] = true →
        ∃ addr, ret[j]? = some (some ⟨some addr, targets[j].value⟩)) := by
  unfold createTransaction at h
  cases hp : phase1 targets 0 (List.replicate targets.length none) [] with
  | error e => rw [hp] at h; exact absurd h (by simp)
  | ok pair =>
    obtain ⟨ret0, gs⟩ := pair
    rw [hp] at h
    dsimp only at h
    have hlen0 : ret0.length = targets.length := by
      have := phase1_length hp
      simpa using this
    obtain ⟨huntouched0, hslots0⟩ := phase1_slots hp (by simp)
    by_cases hgse : gs.isEmpty = true
    · rw [if_pos hgse] at h
      have hret : ret = ret0 := by
        simpa using h.symm
      subst hret
      have hgsnil : gs = [] := by
        cases gs with
        | nil => rfl
        | cons g gs' => simp at hgse
      refine ⟨hlen0, ?_, ?_⟩
      · intro j hj hg
        have := hslots0 j hj
        rw [hg] at this
        simpa using this
      · intro j hj hg
        exact absurd hgsnil (phase1_groups_nonempty hp ⟨targets[j], List.getElem_mem hj, hg⟩)
    · rw [if_neg hgse] at h
      cases hsum : _sumPrivkeys E utxos with
      | error e => rw [hsum] at h; exact absurd h (by simp)
      | ok a =>
        rw [hsum] at h
        dsimp only at h
        cases hop : _outpointsHash E.sha256 utxos (coerceBytes (E.pointFromScalar a)) with
        | none => rw [hop] at h; exact absurd h (by simp)
        | some ophash =>
          rw [hop] at h
          dsimp only at h
          have hnd : (groupKeys gs).Nodup := phase1_keys_nodup hp (by simp [groupKeys])
          have hentries : ∀ g ∈ gs, g.BmValues = spEntriesFrom targets 0 g.Bscan := by
            intro g hg
            have h1 := entriesOf_of_mem hnd hg
            have h2 := phase1_entries hp g.Bscan
            rw [entriesOf_nil, List.nil_append] at h2
            rw [← h1, h2]
          have hndent : ∀ g ∈ gs, List.Pairwise (fun x y => x.2.2 ≠ y.2.2) g.BmValues := by
            intro g hg
            rw [hentries g hg]
            exact spEntriesFrom_pairwise.imp (fun hlt => Nat.ne_of_lt hlt)
          have hdisj : List.Pairwise
              (fun g g' => ∀ e ∈ g.BmValues, ∀ e' ∈ g'.BmValues, e.2.2 ≠ e'.2.2) gs := by
            have hpw : List.Pairwise (fun g g' => g.Bscan ≠ g'.Bscan) gs :=
              List.pairwise_map.mp hnd
            refine hpw.imp_of_mem ?_
            intro g g' hg hg' hne e he e' he' hee
            obtain ⟨Bm1, v1, j1⟩ := e
            obtain ⟨Bm2, v2, j2⟩ := e'
            simp only at hee
            subst hee
            rw [hentries g hg] at he
            rw [hentries g' hg'] at he'
            exact hne (spEntriesFrom_unique he he').1
          have hbound : ∀ g ∈ gs, ∀ e ∈ g.BmValues, e.2.2 < ret0.length := by
            intro g hg e he
            rw [hentries g hg] at he
            have := spEntriesFrom_index_range e he
            omega
          obtain ⟨hlen, huntouched, hslots⟩ := resolveGroups_spec h hndent hdisj hbound
          refine ⟨by rw [hlen, hlen0], ?_, ?_⟩
          · intro j hj hg
            have hforeign : ∀ g ∈ gs, ∀ e ∈ g.BmValues, e.2.2 ≠ j := by
              intro g hg' e he hej
              rw [hentries g hg'] at he
              obtain ⟨p, hpe, hplt, hgp, _, _⟩ := spEntriesFrom_content e he
              rw [hej] at hpe
              have hpj : p = j := by omega
              subst hpj
              rw [hg] at hgp
              exact Bool.false_ne_true hgp
            have h1 := huntouched j hforeign
            have h2 := hslots0 j hj
            rw [hg] at h2
            simp only [Bool.false_eq_true, if_false] at h2
            rw [h1]
            simpa using h2
          · intro j hj hg
            obtain ⟨B, Bm, hd⟩ := phase1_decodes hp targets[j] (List.getElem_mem hj) hg
            have hmem : (Bm, targets[j].value, 0 + j) ∈ spEntriesFrom targets 0 B :=
              spEntriesFrom_mem hj 0 hg hd
            have hent := phase1_entries hp B
            rw [entriesOf_nil, List.nil_append] at hent
            cases hfg : findGroup gs B with
            | none =>
              rw [← hent] at hmem
              unfold entriesOf at hmem
              rw [hfg] at hmem
              simp at hmem
            | some g =>
              obtain ⟨hgmem, hgB⟩ := findGroup_mem hfg
              have hge : g.BmValues = spEntriesFrom targets 0 B := by
                have := hentries g hgmem
                rw [hgB] at this
                exact this
              have hmem' : (Bm, targets[j].value, 0 + j) ∈ g.BmValues := by
                rw [hge]
                exact hmem
              obtain ⟨p, hplt, hpe⟩ := List.getElem_of_mem hmem'
              obtain ⟨addr, hs⟩ := hslots g hgmem p hplt
              rw [hpe] at hs
              simp only [Nat.zero_add] at hs
              exact ⟨addr, hs⟩

/-- C2 witness: one payment-code target and one on-chain target resolve to
a list of the same length with the pass-through entry intact at index 1
and the resolved pair at index 0. -/
theorem claim_C2_witness :
    createTransaction E0 [u1] [tgtPC, tgtOnchain]
      = .ok [some ⟨some "bc1p-stub-address", some 5⟩, some tgtOnchain]
    ∧ ([some ⟨some "bc1p-stub-address", some 5⟩, some tgtOnchain].length
        = [tgtPC, tgtOnchain].length
      ∧ (∀ j (hj : j < [tgtPC, tgtOnchain].length),
          spGuard [tgtPC, tgtOnchain][j] = false →
          [some ⟨some "bc1p-stub-address", some 5⟩, some tgtOnchain][j]?
            = some (some [tgtPC, tgtOnchain][j]))
      ∧ (∀ j (hj : j < [tgtPC, tgtOnchain].length),
          spGuard [tgtPC, tgtOnchain][j] = true →
          ∃ addr, [some ⟨some "bc1p-stub-address", some 5⟩, some tgtOnchain][j]?
            = some (some ⟨some addr, [tgtPC, tgtOnchain][j].value⟩))) :=
  ⟨by decide,
    claim_C2 E0 [u1] [tgtPC, tgtOnchain]
      [some ⟨some "bc1p-stub-address", some 5⟩, some tgtOnchain] (by decide)⟩

end SilentPayments
